import Mathlib

/-!
Verification of the delta-extraction engine of get_px_deltas_from_lines.

The repository contains two revisions of the same program:

* src/processing.rs — the final implementation (white_pixel_indices,
  pixel_deltas_from_masked_run, pixel_deltas_from_row, all_pixel_deltas,
  get_px_deltas_from_lines);
* src/main.rs — an earlier implementation (find_true_indices,
  get_diffs_from_sub_row, get_diffs_from_row, get_all_diffs,
  get_px_deltas_from_lines).

Both implementations test each pixel against the maximal value of its element
type (u8::MAX for byte images, true for boolean images).  The embedding
represents a pixel by the Boolean outcome of that test: a pixel is `true`
exactly when the Rust code considers it white/foreground.  Rust `usize`
arithmetic on indices is represented by `Nat`; every place where the Rust code
can panic (out-of-bounds index, invalid slice range) is modelled by an
`Option` whose `none` is the panic, and fallible results are `Except String`.
-/

/-- Embedding of `white_pixel_indices` (processing.rs, lines 58-66): indices of
a row at which the pixel equals the maximal (white) value. -/
def white_pixel_indices (vec : List Bool) : List Nat :=
  (vec.enum.filter fun p => p.2).map Prod.fst

/-- Embedding of `find_true_indices` (main.rs, lines 35-41): the earlier
revision of the same index scan, written on boolean rows. -/
def find_true_indices (vec : List Bool) : List Nat :=
  (vec.enum.filter fun p => p.2).map Prod.fst

/-- Loop of `pixel_deltas_from_masked_run` (processing.rs, lines 140-150).
State `last_edge_idx` starts at 0 and `idx_no` is the enumeration counter; a
difference is pushed only when `idx_no > 0`, the index differs from
`last_edge_idx`, and the difference exceeds 1. -/
def masked_run_go (last_edge_idx idx_no : Nat) : List Nat → List Nat
  | [] => []
  | idx :: rest =>
    (if idx_no > 0 ∧ idx ≠ last_edge_idx then
        (if idx - last_edge_idx > 1 then [idx - last_edge_idx] else [])
      else []) ++ masked_run_go idx (idx_no + 1) rest

/-- Embedding of `pixel_deltas_from_masked_run` (processing.rs, lines
136-153). -/
def pixel_deltas_from_masked_run (sub_row : List Bool) : List Nat :=
  masked_run_go 0 0 (white_pixel_indices sub_row)

/-- Loop of `get_diffs_from_sub_row` (main.rs, lines 130-146): the earlier
revision has no `idx_no > 0` guard, so a first edge at index > 1 measures a
distance from index 0. -/
def sub_row_go (last_edge_idx : Nat) : List Nat → List Nat
  | [] => []
  | idx :: rest =>
    (if idx ≠ last_edge_idx then
        (if idx - last_edge_idx > 1 then [idx - last_edge_idx] else [])
      else []) ++ sub_row_go idx rest

/-- Embedding of `get_diffs_from_sub_row` (main.rs, lines 130-146).  The Rust
function wraps the vector in `Ok` but has no error path, so it is embedded as
the plain list. -/
def get_diffs_from_sub_row (sub_row : List Bool) : List Nat :=
  sub_row_go 0 (find_true_indices sub_row)

/-- Rust slice expression `row[a..b]`; `none` models the panic raised when the
range is invalid for the row. -/
def slice? (row : List Bool) (a b : Nat) : Option (List Bool) :=
  if a ≤ b ∧ b ≤ row.length then some ((row.drop a).take (b - a)) else none

/-- Loop of `pixel_deltas_from_row` (processing.rs, lines 115-127), walking the
boundary list with cursor `idx_start`.  The mask access `row_mask[idx_end - 1]`
and the data slice `row[idx_start..idx_end]` are the two panic sites, modelled
with `Option`; `idx_start` advances to `idx_end + 1` on every boundary. -/
def row_go (row row_mask : List Bool) : List Nat → Nat → Option (List Nat)
  | [], _ => some []
  | idx_end :: rest, idx_start =>
    if idx_end = 0 then
      (slice? row idx_start idx_end).bind fun split =>
        (row_go row row_mask rest (idx_end + 1)).map fun r =>
          pixel_deltas_from_masked_run split ++ r
    else
      (row_mask[idx_end - 1]?).bind fun m =>
        if m then row_go row row_mask rest (idx_end + 1)
        else
          (slice? row idx_start idx_end).bind fun split =>
            (row_go row row_mask rest (idx_end + 1)).map fun r =>
              pixel_deltas_from_masked_run split ++ r

/-- Embedding of `pixel_deltas_from_row` (processing.rs, lines 105-129): the
boundaries are the white indices of the mask row with the row length appended
as sentinel, and the cursor starts at 0. -/
def pixel_deltas_from_row? (row row_mask : List Bool) : Option (List Nat) :=
  row_go row row_mask (white_pixel_indices row_mask ++ [row.length]) 0

/-- Loop of `get_diffs_from_row` (main.rs, lines 109-121): identical control
flow to `row_go` but calling the earlier sub-row delta computer. -/
def main_row_go (row row_mask : List Bool) : List Nat → Nat → Option (List Nat)
  | [], _ => some []
  | idx_end :: rest, idx_start =>
    if idx_end = 0 then
      (slice? row idx_start idx_end).bind fun split =>
        (main_row_go row row_mask rest (idx_end + 1)).map fun r =>
          get_diffs_from_sub_row split ++ r
    else
      (row_mask[idx_end - 1]?).bind fun m =>
        if m then main_row_go row row_mask rest (idx_end + 1)
        else
          (slice? row idx_start idx_end).bind fun split =>
            (main_row_go row row_mask rest (idx_end + 1)).map fun r =>
              get_diffs_from_sub_row split ++ r

/-- Embedding of `get_diffs_from_row` (main.rs, lines 101-123). -/
def get_diffs_from_row? (row row_mask : List Bool) : Option (List Nat) :=
  main_row_go row row_mask (find_true_indices row_mask ++ [row.length]) 0

/-- Embedding of `ndarray::Array2`: a rectangular grid with explicit height and
width, stored as its list of rows. -/
structure Array2 (α : Type) where
  height : Nat
  width : Nat
  data : List (List α)
  hdata : data.length = height ∧ ∀ r ∈ data, r.length = width

/-- Rust `Array2::shape`, as the pair (height, width). -/
def Array2.shape {α : Type} (a : Array2 α) : Nat × Nat := (a.height, a.width)

/-- Rust `Array2::mapv`: apply a function to every element. -/
def Array2.mapv {α β : Type} (f : α → β) (a : Array2 α) : Array2 β where
  height := a.height
  width := a.width
  data := a.data.map fun r => r.map f
  hdata := by
    obtain ⟨h1, h2⟩ := a.hdata
    refine ⟨by simpa using h1, ?_⟩
    intro r hr
    simp only [List.mem_map] at hr
    obtain ⟨s, hs, rfl⟩ := hr
    simpa using h2 s hs

/-- The text built by the shape-mismatch branch of `all_pixel_deltas`
(processing.rs, lines 75-79): Rust Debug formatting of the two shape slices
interpolated into the message. -/
def shape_mismatch_msg (img mask : Nat × Nat) : String :=
  "Shape mismatch: img=[" ++ toString img.1 ++ ", " ++ toString img.2 ++
    "], mask=[" ++ toString mask.1 ++ ", " ++ toString mask.2 ++ "]"

/-- Row loop of `all_pixel_deltas` (processing.rs, lines 83-99): process each
(image row, mask row) pair in order and append the per-row results. -/
def rows_deltas? : List (List Bool × List Bool) → Option (List Nat)
  | [] => some []
  | (r, m) :: rest =>
    (pixel_deltas_from_row? r m).bind fun d =>
      (rows_deltas? rest).map fun ds => d ++ ds

/-- Embedding of `all_pixel_deltas` (processing.rs, lines 70-102): the shape
check happens before any row is touched; `some (Except.error msg)` is the
shape-mismatch return, `some (Except.ok out)` the successful result, and
`none` a panic inside row processing. -/
def all_pixel_deltas? (image mask : Array2 Bool) : Option (Except String (List Nat)) :=
  if image.shape ≠ mask.shape then
    some (Except.error (shape_mismatch_msg image.shape mask.shape))
  else
    (rows_deltas? (image.data.zip mask.data)).map Except.ok

/-- Row loop of `get_all_diffs` (main.rs, lines 79-95). -/
def main_rows_deltas? : List (List Bool × List Bool) → Option (List Nat)
  | [] => some []
  | (r, m) :: rest =>
    (get_diffs_from_row? r m).bind fun d =>
      (main_rows_deltas? rest).map fun ds => d ++ ds

/-- Embedding of `get_all_diffs` (main.rs, lines 69-98). -/
def get_all_diffs? (image mask : Array2 Bool) : Option (Except String (List Nat)) :=
  if image.shape ≠ mask.shape then
    some (Except.error (shape_mismatch_msg image.shape mask.shape))
  else
    (main_rows_deltas? (image.data.zip mask.data)).map Except.ok

/-- Embedding of `get_px_deltas_from_lines` (processing.rs, lines 8-29).  Path
validation and image decoding are external collaborators, so the function is
parametrised over them; with no mask path the mask is the image mapped to the
zero (background) value, which the Boolean pixel embedding renders as
`false`. -/
def get_px_deltas_from_lines (validate : String → Except String Unit)
    (load : String → Except String (Array2 Bool))
    (image_path : String) (mask_path : Option String) :
    Option (Except String (List Nat)) :=
  match validate image_path with
  | Except.error e => some (Except.error e)
  | Except.ok _ =>
    match load image_path with
    | Except.error e => some (Except.error e)
    | Except.ok image =>
      match mask_path with
      | some pth =>
        match validate pth with
        | Except.error e => some (Except.error e)
        | Except.ok _ =>
          match load pth with
          | Except.error e => some (Except.error e)
          | Except.ok mask => all_pixel_deltas? image mask
      | none => all_pixel_deltas? image (Array2.mapv (fun _ => false) image)

/-- Embedding of the earlier `get_px_deltas_from_lines` (main.rs, lines
44-65).  Note the Some branch of the source reads `load_image(image_path)`:
after validating the mask path it decodes the IMAGE path again and uses that
grid as the mask. -/
def main_get_px_deltas_from_lines (validate : String → Except String Unit)
    (load : String → Except String (Array2 Bool))
    (image_path : String) (mask_path : Option String) :
    Option (Except String (List Nat)) :=
  match validate image_path with
  | Except.error e => some (Except.error e)
  | Except.ok _ =>
    match load image_path with
    | Except.error e => some (Except.error e)
    | Except.ok image =>
      match mask_path with
      | some pth =>
        match validate pth with
        | Except.error e => some (Except.error e)
        | Except.ok _ =>
          match load image_path with
          | Except.error e => some (Except.error e)
          | Except.ok mask => get_all_diffs? image mask
      | none => get_all_diffs? image (Array2.mapv (fun _ => false) image)

/-- Specification-side delta computer for claim C1, written from the words of
the spec (section 4.3): walk the edge indices in ascending order; the first
edge yields nothing, every later edge measures its distance to the previous
edge, and only distances greater than 1 are kept. -/
def spec_consecutive_deltas (edges : List Nat) : List Nat :=
  ((edges.zip edges.tail).map fun p => p.2 - p.1).filter fun d => decide (1 < d)

/-- Specification-side segment list for claim C4, written from the words of the
spec (section 4.2): walk the boundary list with a cursor, emit `[start, end)`
unless the boundary is 0-adjacent to a masked pixel, advance the cursor to
`end + 1` unconditionally. -/
def row_segments_go (row_mask : List Bool) : List Nat → Nat → List (Nat × Nat)
  | [], _ => []
  | idx_end :: rest, idx_start =>
    (if idx_end = 0 ∨ row_mask.getD (idx_end - 1) false = false then
        [(idx_start, idx_end)]
      else []) ++ row_segments_go row_mask rest (idx_end + 1)

/-- Segments of a row of the given length, split at the mask row's white
pixels. -/
def row_segments (row_mask : List Bool) (row_len : Nat) : List (Nat × Nat) :=
  row_segments_go row_mask (white_pixel_indices row_mask ++ [row_len]) 0

/-- Row of the spec scenario for claim C5 (1 = foreground). -/
def rowC5 : List Bool :=
  [true, false, false, true, true, true, false, true, false, true, true, false]

/-- Mask row of the spec scenario for claim C5 (1 = masked). -/
def maskRowC5 : List Bool :=
  [false, false, false, false, true, false, false, false, true, false, false, true]

/-- Row of the spec scenario for claim C6. -/
def imgRow8 : List Bool :=
  [true, false, true, false, false, true, false, true]

/-- The 2 x 8 image of the claim C6 scenario. -/
def imgC6 : Array2 Bool := ⟨2, 8, [imgRow8, imgRow8], by decide⟩

/-- The all-background 2 x 8 mask of the claim C6 scenario. -/
def maskC6 : Array2 Bool :=
  ⟨2, 8, [List.replicate 8 false, List.replicate 8 false], by decide⟩

/-- A grid of shape (1, 4), as in the shape-mismatch scenario of claim C3. -/
def imgC3 : Array2 Bool := ⟨1, 4, [List.replicate 4 false], by decide⟩

/-- A grid of shape (4, 59), as in the shape-mismatch scenario of claim C3. -/
def maskC3 : Array2 Bool :=
  ⟨4, 59, List.replicate 4 (List.replicate 59 false), by decide⟩

/-- A concrete path validator accepting every path, used to instantiate the
entry points in witnesses. -/
def demo_validate : String → Except String Unit := fun _ => Except.ok ()

/-- A concrete image loader used to instantiate the entry points in
witnesses. -/
def demo_load : String → Except String (Array2 Bool) := fun p =>
  if p = "mask.png" then Except.ok maskC6 else Except.ok imgC6

/-- A second loader differing from `demo_load` only in the grid stored at the
mask path. -/
def demo_load_alt : String → Except String (Array2 Bool) := fun p =>
  if p = "mask.png" then Except.ok imgC3 else Except.ok imgC6


/-- Generalisation of `white_pixel_indices` to an arbitrary enumeration start,
used only for proofs. -/
def wpiAux (n : Nat) (vec : List Bool) : List Nat :=
  ((vec.enumFrom n).filter fun p => p.2).map Prod.fst

lemma white_pixel_indices_eq_wpiAux (vec : List Bool) :
    white_pixel_indices vec = wpiAux 0 vec := rfl

lemma wpiAux_cons (n : Nat) (a : Bool) (vec : List Bool) :
    wpiAux n (a :: vec) = (if a then [n] else []) ++ wpiAux (n + 1) vec := by
  unfold wpiAux
  rw [List.enumFrom_cons, List.filter_cons]
  cases a <;> simp

lemma wpiAux_ge {n : Nat} {vec : List Bool} {i : Nat} (h : i ∈ wpiAux n vec) :
    n ≤ i := by
  induction vec generalizing n with
  | nil => simp [wpiAux] at h
  | cons a vec ih =>
    rw [wpiAux_cons] at h
    rcases List.mem_append.1 h with h | h
    · cases a
      · simp at h
      · simp at h; omega
    · have := ih h
      omega

lemma wpiAux_pairwise (n : Nat) (vec : List Bool) :
    List.Pairwise (· < ·) (wpiAux n vec) := by
  induction vec generalizing n with
  | nil => simp [wpiAux]
  | cons a vec ih =>
    rw [wpiAux_cons]
    cases a
    · simpa using ih (n + 1)
    · simp only [if_pos rfl, List.singleton_append]
      refine List.pairwise_cons.2 ⟨fun i hi => ?_, ih (n + 1)⟩
      have := wpiAux_ge hi
      omega

lemma mem_wpiAux {n : Nat} {vec : List Bool} {i : Nat} :
    i ∈ wpiAux n vec ↔ ∃ j, j < vec.length ∧ i = n + j ∧ vec.getD j false = true := by
  induction vec generalizing n i with
  | nil => simp [wpiAux]
  | cons a vec ih =>
    rw [wpiAux_cons]
    constructor
    · intro h
      rcases List.mem_append.1 h with h | h
      · cases a with
        | false => simp at h
        | true =>
          simp at h
          exact ⟨0, by simp, by omega, by simp⟩
      · obtain ⟨j, hj, hij, hv⟩ := ih.1 h
        exact ⟨j + 1, by simpa using hj, by omega, by simpa using hv⟩
    · rintro ⟨j, hj, rfl, hv⟩
      cases j with
      | zero =>
        simp only [List.getD_cons_zero] at hv
        subst hv
        simp
      | succ j =>
        simp only [List.getD_cons_succ] at hv
        refine List.mem_append.2 (Or.inr (ih.2 ⟨j, ?_, by omega, hv⟩))
        simpa using hj

lemma mem_white_pixel_indices {vec : List Bool} {i : Nat} :
    i ∈ white_pixel_indices vec ↔ i < vec.length ∧ vec.getD i false = true := by
  rw [white_pixel_indices_eq_wpiAux, mem_wpiAux]
  constructor
  · rintro ⟨j, hj, rfl, hv⟩
    refine ⟨by omega, ?_⟩
    rw [Nat.zero_add]
    exact hv
  · rintro ⟨hi, hv⟩
    exact ⟨i, hi, by omega, hv⟩

lemma white_pixel_indices_pairwise (vec : List Bool) :
    List.Pairwise (· < ·) (white_pixel_indices vec) := by
  rw [white_pixel_indices_eq_wpiAux]
  exact wpiAux_pairwise 0 vec

lemma white_pixel_indices_lt {vec : List Bool} {i : Nat}
    (h : i ∈ white_pixel_indices vec) : i < vec.length :=
  (mem_white_pixel_indices.1 h).1

lemma masked_run_go_chain (rest : List Nat) :
    ∀ (last n : Nat), 0 < n → List.Chain (· < ·) last rest →
      masked_run_go last n rest = spec_consecutive_deltas (last :: rest) := by
  induction rest with
  | nil =>
    intro last n hn _
    simp [masked_run_go, spec_consecutive_deltas]
  | cons r rs ih =>
    intro last n hn hchain
    rw [List.chain_cons] at hchain
    obtain ⟨hlr, hchain'⟩ := hchain
    unfold masked_run_go
    rw [ih r (n + 1) (by omega) hchain']
    have hne : r ≠ last := by omega
    unfold spec_consecutive_deltas
    simp only [List.tail_cons, List.zip_cons_cons, List.map_cons, List.filter_cons]
    rw [if_pos ⟨hn, hne⟩]
    by_cases hd : 1 < r - last
    · rw [if_pos hd]
      simp [hd]
    · rw [if_neg hd]
      simp [hd, Nat.not_lt.1 hd]

/-- Claim C1 support: on a strictly ascending edge list the code loop computes
exactly the consecutive-pair deltas of the spec. -/
lemma masked_run_eq_spec (sub_row : List Bool) :
    pixel_deltas_from_masked_run sub_row =
      spec_consecutive_deltas (white_pixel_indices sub_row) := by
  unfold pixel_deltas_from_masked_run
  cases hE : white_pixel_indices sub_row with
  | nil => simp [masked_run_go, spec_consecutive_deltas]
  | cons e rest =>
    have hpw := white_pixel_indices_pairwise sub_row
    rw [hE] at hpw
    have hchain : List.Chain (· < ·) e rest := List.chain'_iff_pairwise.2 hpw
    unfold masked_run_go
    rw [masked_run_go_chain rest e 1 Nat.one_pos hchain]
    simp

lemma masked_run_go_mem_gt_one (es : List Nat) :
    ∀ (last n d : Nat), d ∈ masked_run_go last n es → 1 < d := by
  induction es with
  | nil =>
    intro last n d h
    simp [masked_run_go] at h
  | cons idx rest ih =>
    intro last n d h
    unfold masked_run_go at h
    rcases List.mem_append.1 h with h | h
    · by_cases h1 : n > 0 ∧ idx ≠ last
      · rw [if_pos h1] at h
        by_cases h2 : idx - last > 1
        · rw [if_pos h2] at h
          simp at h
          omega
        · rw [if_neg h2] at h
          simp at h
      · rw [if_neg h1] at h
        simp at h
    · exact ih idx (n + 1) d h

lemma pdfmr_mem_gt_one {s : List Bool} {d : Nat}
    (h : d ∈ pixel_deltas_from_masked_run s) : 1 < d :=
  masked_run_go_mem_gt_one _ 0 0 d h

lemma row_go_mem_gt_one (bs : List Nat) :
    ∀ (row row_mask : List Bool) (start : Nat) (out : List Nat),
      row_go row row_mask bs start = some out → ∀ d ∈ out, 1 < d := by
  induction bs with
  | nil =>
    intro row rm start out h d hd
    simp [row_go] at h
    subst h
    simp at hd
  | cons e rest ih =>
    intro row rm start out h d hd
    unfold row_go at h
    by_cases h0 : e = 0
    · rw [if_pos h0] at h
      cases hs : slice? row start e with
      | none => rw [hs] at h; simp at h
      | some split =>
        rw [hs] at h
        cases hr : row_go row rm rest (e + 1) with
        | none => rw [hr] at h; simp at h
        | some r =>
          rw [hr] at h
          simp at h
          rw [← h] at hd
          rcases List.mem_append.1 hd with hd | hd
          · exact pdfmr_mem_gt_one hd
          · exact ih row rm (e + 1) r hr d hd
    · rw [if_neg h0] at h
      cases hm : rm[e - 1]? with
      | none => rw [hm] at h; simp at h
      | some m =>
        rw [hm] at h
        simp only [Option.some_bind] at h
        cases m with
        | true =>
          rw [if_pos rfl] at h
          exact ih row rm (e + 1) out h d hd
        | false =>
          rw [if_neg (by simp)] at h
          cases hs : slice? row start e with
          | none => rw [hs] at h; simp at h
          | some split =>
            rw [hs] at h
            cases hr : row_go row rm rest (e + 1) with
            | none => rw [hr] at h; simp at h
            | some r =>
              rw [hr] at h
              simp at h
              rw [← h] at hd
              rcases List.mem_append.1 hd with hd | hd
              · exact pdfmr_mem_gt_one hd
              · exact ih row rm (e + 1) r hr d hd

lemma row_deltas_mem_gt_one {row row_mask : List Bool} {out : List Nat}
    (h : pixel_deltas_from_row? row row_mask = some out) : ∀ d ∈ out, 1 < d :=
  row_go_mem_gt_one _ row row_mask 0 out h

lemma rows_deltas_mem_gt_one (pairs : List (List Bool × List Bool)) :
    ∀ (out : List Nat), rows_deltas? pairs = some out → ∀ d ∈ out, 1 < d := by
  induction pairs with
  | nil =>
    intro out h d hd
    simp [rows_deltas?] at h
    subst h
    simp at hd
  | cons p rest ih =>
    intro out h d hd
    obtain ⟨r, m⟩ := p
    unfold rows_deltas? at h
    cases hs : pixel_deltas_from_row? r m with
    | none => rw [hs] at h; simp at h
    | some dr =>
      rw [hs] at h
      cases hr : rows_deltas? rest with
      | none => rw [hr] at h; simp at h
      | some ds =>
        rw [hr] at h
        simp at h
        rw [← h] at hd
        rcases List.mem_append.1 hd with hd | hd
        · exact row_deltas_mem_gt_one hs d hd
        · exact ih ds hr d hd

lemma row_go_eq_segments (row row_mask : List Bool) (bs : List Nat) :
    ∀ (start : Nat),
      (∀ b ∈ bs, b ≤ row.length ∧ b ≤ row_mask.length) →
      List.Pairwise (· < ·) bs →
      (∀ b ∈ bs, start ≤ b) →
      row_go row row_mask bs start =
        some ((row_segments_go row_mask bs start).flatMap fun seg =>
          pixel_deltas_from_masked_run ((row.drop seg.1).take (seg.2 - seg.1))) := by
  induction bs with
  | nil =>
    intro start h1 h2 h3
    simp [row_go, row_segments_go]
  | cons e rest ih =>
    intro start h1 h2 h3
    obtain ⟨heR, heM⟩ := h1 e (List.mem_cons_self e rest)
    have hse : start ≤ e := h3 e (List.mem_cons_self e rest)
    rw [List.pairwise_cons] at h2
    obtain ⟨hlt, hpw⟩ := h2
    have h1r : ∀ b ∈ rest, b ≤ row.length ∧ b ≤ row_mask.length :=
      fun b hb => h1 b (List.mem_cons_of_mem e hb)
    have h3r : ∀ b ∈ rest, e + 1 ≤ b := fun b hb => hlt b hb
    have ihr := ih (e + 1) h1r hpw h3r
    have hslice : slice? row start e = some ((row.drop start).take (e - start)) := by
      unfold slice?
      rw [if_pos ⟨hse, heR⟩]
    unfold row_go row_segments_go
    by_cases h0 : e = 0
    · subst h0
      rw [if_pos rfl, hslice, Option.some_bind, ihr, Option.map_some']
      rw [if_pos (Or.inl rfl)]
      simp
    · rw [if_neg h0]
      have hem : e - 1 < row_mask.length := by omega
      have hgd : row_mask.getD (e - 1) false = row_mask[e - 1] := by
        rw [List.getD_eq_getElem?_getD, List.getElem?_eq_getElem hem]
        rfl
      rw [List.getElem?_eq_getElem hem, Option.some_bind]
      cases hm : row_mask[e - 1] with
      | true =>
        rw [if_pos rfl, ihr]
        rw [if_neg (by rw [hgd, hm]; simp [h0])]
        simp
      | false =>
        rw [if_neg (by simp), hslice, Option.some_bind, ihr, Option.map_some']
        rw [if_pos (Or.inr (by rw [hgd, hm]))]
        simp

lemma boundaries_le {row row_mask : List Bool} (hlen : row.length = row_mask.length) :
    ∀ b ∈ white_pixel_indices row_mask ++ [row.length],
      b ≤ row.length ∧ b ≤ row_mask.length := by
  intro b hb
  rcases List.mem_append.1 hb with hb | hb
  · have := white_pixel_indices_lt hb
    omega
  · simp at hb
    omega

lemma boundaries_pairwise {row row_mask : List Bool} (hlen : row.length = row_mask.length) :
    List.Pairwise (· < ·) (white_pixel_indices row_mask ++ [row.length]) := by
  rw [List.pairwise_append]
  refine ⟨white_pixel_indices_pairwise row_mask, by simp, ?_⟩
  intro a ha b hb
  simp at hb
  subst hb
  have := white_pixel_indices_lt ha
  omega

/-- Claim C4 and C9 support: on rows of equal length, the row splitter returns
(without panicking) exactly the concatenated masked-run deltas of the segment
list. -/
lemma pixel_deltas_from_row_eq_segments (row row_mask : List Bool)
    (hlen : row.length = row_mask.length) :
    pixel_deltas_from_row? row row_mask =
      some ((row_segments row_mask row.length).flatMap fun seg =>
        pixel_deltas_from_masked_run ((row.drop seg.1).take (seg.2 - seg.1))) := by
  unfold pixel_deltas_from_row? row_segments
  exact row_go_eq_segments row row_mask _ 0 (boundaries_le hlen)
    (boundaries_pairwise hlen) (fun b _ => Nat.zero_le b)

lemma row_segments_go_mem (row_mask : List Bool) (bs : List Nat) :
    ∀ (start : Nat),
      List.Pairwise (· < ·) bs →
      (∀ b ∈ bs, start ≤ b) →
      ∀ seg ∈ row_segments_go row_mask bs start,
        start ≤ seg.1 ∧ seg.1 ≤ seg.2 ∧ seg.2 ∈ bs := by
  induction bs with
  | nil =>
    intro start h2 h3 seg hseg
    simp [row_segments_go] at hseg
  | cons e rest ih =>
    intro start h2 h3 seg hseg
    have hse : start ≤ e := h3 e (List.mem_cons_self e rest)
    rw [List.pairwise_cons] at h2
    obtain ⟨hlt, hpw⟩ := h2
    have h3r : ∀ b ∈ rest, e + 1 ≤ b := fun b hb => hlt b hb
    unfold row_segments_go at hseg
    rcases List.mem_append.1 hseg with hseg | hseg
    · by_cases hc : e = 0 ∨ row_mask.getD (e - 1) false = false
      · rw [if_pos hc] at hseg
        simp at hseg
        subst hseg
        exact ⟨Nat.le_refl start, hse, List.mem_cons_self e rest⟩
      · rw [if_neg hc] at hseg
        simp at hseg
    · obtain ⟨hs1, hs2, hs3⟩ := ih (e + 1) hpw h3r seg hseg
      exact ⟨by omega, hs2, List.mem_cons_of_mem e hs3⟩

lemma row_segments_go_pairwise (row_mask : List Bool) (bs : List Nat) :
    ∀ (start : Nat),
      List.Pairwise (· < ·) bs →
      (∀ b ∈ bs, start ≤ b) →
      List.Pairwise (fun p q : Nat × Nat => p.2 < q.1)
        (row_segments_go row_mask bs start) := by
  induction bs with
  | nil =>
    intro start h2 h3
    simp [row_segments_go]
  | cons e rest ih =>
    intro start h2 h3
    rw [List.pairwise_cons] at h2
    obtain ⟨hlt, hpw⟩ := h2
    have h3r : ∀ b ∈ rest, e + 1 ≤ b := fun b hb => hlt b hb
    unfold row_segments_go
    rw [List.pairwise_append]
    refine ⟨?_, ih (e + 1) hpw h3r, ?_⟩
    · by_cases hc : e = 0 ∨ row_mask.getD (e - 1) false = false
      · rw [if_pos hc]; simp
      · rw [if_neg hc]; simp
    · intro p hp q hq
      have hq1 := (row_segments_go_mem row_mask rest (e + 1) hpw h3r q hq).1
      by_cases hc : e = 0 ∨ row_mask.getD (e - 1) false = false
      · rw [if_pos hc] at hp
        simp at hp
        subst hp
        omega
      · rw [if_neg hc] at hp
        simp at hp

lemma row_segments_go_mask_free (row_mask : List Bool) (bs : List Nat) :
    ∀ (start : Nat),
      (∀ b ∈ bs, b ≤ row_mask.length) →
      List.Pairwise (· < ·) bs →
      (∀ b ∈ bs, start ≤ b) →
      (∀ w, w < row_mask.length → row_mask.getD w false = true → w < start ∨ w ∈ bs) →
      ∀ seg ∈ row_segments_go row_mask bs start,
        ∀ c, seg.1 ≤ c → c < seg.2 → row_mask.getD c false = false := by
  induction bs with
  | nil =>
    intro start _ _ _ _ seg hseg
    simp [row_segments_go] at hseg
  | cons e rest ih =>
    intro start h1 h2 h3 hw seg hseg c hc1 hc2
    have hse : start ≤ e := h3 e (List.mem_cons_self e rest)
    have heM : e ≤ row_mask.length := h1 e (List.mem_cons_self e rest)
    rw [List.pairwise_cons] at h2
    obtain ⟨hlt, hpw⟩ := h2
    have h1r : ∀ b ∈ rest, b ≤ row_mask.length :=
      fun b hb => h1 b (List.mem_cons_of_mem e hb)
    have h3r : ∀ b ∈ rest, e + 1 ≤ b := fun b hb => hlt b hb
    have hwr : ∀ w, w < row_mask.length → row_mask.getD w false = true →
        w < e + 1 ∨ w ∈ rest := by
      intro w hw1 hw2
      rcases hw w hw1 hw2 with h | h
      · left; omega
      · rcases List.mem_cons.1 h with h | h
        · left; omega
        · right; exact h
    unfold row_segments_go at hseg
    rcases List.mem_append.1 hseg with hseg | hseg
    · by_cases hcond : e = 0 ∨ row_mask.getD (e - 1) false = false
      · rw [if_pos hcond] at hseg
        simp at hseg
        subst hseg
        have hc1' : start ≤ c := hc1
        have hc2' : c < e := hc2
        by_contra hcc
        have hct : row_mask.getD c false = true := by
          cases hgv : row_mask.getD c false
          · exact absurd hgv hcc
          · rfl
        have hclen : c < row_mask.length := by omega
        rcases hw c hclen hct with h | h
        · omega
        · rcases List.mem_cons.1 h with h | h
          · omega
          · have := hlt c h
            omega
      · rw [if_neg hcond] at hseg
        simp at hseg
    · exact ih (e + 1) h1r hpw h3r hwr seg hseg c hc1 hc2

lemma boundaries_start_le {row row_mask : List Bool} :
    ∀ b ∈ white_pixel_indices row_mask ++ [row.length], 0 ≤ b :=
  fun b _ => Nat.zero_le b

/-- Claim C4 support: segments of a row are pairwise disjoint and in ascending
column order. -/
lemma row_segments_pairwise (row_mask : List Bool) (row_len : Nat)
    (hlen : row_len = row_mask.length) :
    List.Pairwise (fun p q : Nat × Nat => p.2 < q.1)
      (row_segments row_mask row_len) := by
  unfold row_segments
  apply row_segments_go_pairwise
  · rw [List.pairwise_append]
    refine ⟨white_pixel_indices_pairwise row_mask, by simp, ?_⟩
    intro a ha b hb
    simp at hb
    subst hb
    have := white_pixel_indices_lt ha
    omega
  · exact fun b _ => Nat.zero_le b

/-- Claim C4 support: every segment is well-formed and contains no masked
column. -/
lemma row_segments_sound (row_mask : List Bool) (row_len : Nat)
    (hlen : row_len = row_mask.length) :
    ∀ seg ∈ row_segments row_mask row_len,
      seg.1 ≤ seg.2 ∧
      ∀ c, seg.1 ≤ c → c < seg.2 → row_mask.getD c false = false := by
  have hpw : List.Pairwise (· < ·) (white_pixel_indices row_mask ++ [row_len]) := by
    rw [List.pairwise_append]
    refine ⟨white_pixel_indices_pairwise row_mask, by simp, ?_⟩
    intro a ha b hb
    simp at hb
    subst hb
    have := white_pixel_indices_lt ha
    omega
  intro seg hseg
  constructor
  · exact (row_segments_go_mem row_mask _ 0 hpw (fun b _ => Nat.zero_le b) seg hseg).2.1
  · refine row_segments_go_mask_free row_mask _ 0 ?_ hpw (fun b _ => Nat.zero_le b) ?_ seg hseg
    · intro b hb
      rcases List.mem_append.1 hb with hb | hb
      · exact Nat.le_of_lt (white_pixel_indices_lt hb)
      · simp at hb
        omega
    · intro w hw1 hw2
      right
      exact List.mem_append.2 (Or.inl (mem_white_pixel_indices.2 ⟨by omega, hw2⟩))

/-- Claim C7 support: a mask row with no foreground pixel yields the single
whole-row segment, so the row result is the masked-run result of the entire
row. -/
lemma row_all_background (row row_mask : List Bool)
    (hlen : row.length = row_mask.length) (hbg : ∀ b ∈ row_mask, b = false) :
    pixel_deltas_from_row? row row_mask =
      some (pixel_deltas_from_masked_run row) := by
  have hwpi : white_pixel_indices row_mask = [] := by
    rw [List.eq_nil_iff_forall_not_mem]
    intro i hi
    obtain ⟨hlt, hv⟩ := mem_white_pixel_indices.1 hi
    have hmem : row_mask.getD i false ∈ row_mask := by
      rw [List.getD_eq_getElem?_getD, List.getElem?_eq_getElem hlt]
      exact List.getElem_mem hlt
    have := hbg _ hmem
    rw [this] at hv
    cases hv
  unfold pixel_deltas_from_row?
  rw [hwpi, List.nil_append]
  by_cases h0 : row.length = 0
  · have hrow : row = [] := List.length_eq_zero.1 h0
    have hmask : row_mask = [] := List.length_eq_zero.1 (by omega)
    subst hrow
    subst hmask
    rfl
  · unfold row_go
    rw [if_neg h0]
    have hem : row.length - 1 < row_mask.length := by omega
    rw [List.getElem?_eq_getElem hem, Option.some_bind]
    have hfalse : row_mask[row.length - 1] = false :=
      hbg _ (List.getElem_mem hem)
    rw [hfalse, if_neg (by simp)]
    have hslice : slice? row 0 row.length = some row := by
      unfold slice?
      rw [if_pos ⟨Nat.zero_le _, Nat.le_refl _⟩]
      simp
    rw [hslice, Option.some_bind]
    simp [row_go]

lemma rows_deltas_all_background (rows : List (List Bool)) :
    ∀ (masks : List (List Bool)),
      rows.length = masks.length →
      (∀ p ∈ rows.zip masks, p.1.length = p.2.length) →
      (∀ m ∈ masks, ∀ b ∈ m, b = false) →
      rows_deltas? (rows.zip masks) =
        some (rows.flatMap pixel_deltas_from_masked_run) := by
  induction rows with
  | nil =>
    intro masks hlen _ _
    simp [rows_deltas?]
  | cons r rows ih =>
    intro masks hlen hp hbg
    cases masks with
    | nil => simp at hlen
    | cons m masks =>
      rw [List.zip_cons_cons]
      unfold rows_deltas?
      have h1 : r.length = m.length :=
        hp (r, m) (by rw [List.zip_cons_cons]; exact List.mem_cons_self _ _)
      rw [row_all_background r m h1 (hbg m (List.mem_cons_self m masks))]
      rw [ih masks (by simpa using hlen)
        (fun p hp' => hp p (by rw [List.zip_cons_cons]; exact List.mem_cons_of_mem _ hp'))
        (fun mm hm => hbg mm (List.mem_cons_of_mem m hm))]
      simp

/-- Claim C7 support: running the engine against any all-background mask of the
image's shape equals running it against the all-background mask the no-mask
default constructs. -/
lemma all_pixel_deltas_all_background (image mask : Array2 Bool)
    (hsh : mask.shape = image.shape)
    (hbg : ∀ mrow ∈ mask.data, ∀ b ∈ mrow, b = false) :
    all_pixel_deltas? image mask =
      all_pixel_deltas? image (Array2.mapv (fun _ => false) image) := by
  have hflat := image.hdata
  obtain ⟨hih, hiw⟩ := hflat
  obtain ⟨hmh, hmw⟩ := mask.hdata
  have hsh' : mask.height = image.height ∧ mask.width = image.width := by
    unfold Array2.shape at hsh
    exact ⟨congrArg Prod.fst hsh, congrArg Prod.snd hsh⟩
  unfold all_pixel_deltas?
  rw [if_neg (by unfold Array2.shape; simp [hsh'.1, hsh'.2]),
    if_neg (by unfold Array2.shape Array2.mapv; simp)]
  unfold Array2.mapv
  rw [rows_deltas_all_background image.data mask.data (by omega)
    (by
      intro p hp
      obtain ⟨a, b⟩ := p
      obtain ⟨ha, hb⟩ := List.of_mem_zip hp
      rw [hiw a ha, hmw b hb, hsh'.2])
    hbg]
  rw [rows_deltas_all_background image.data (image.data.map fun r => r.map fun _ => false)
    (by simp)
    (by
      intro p hp
      obtain ⟨a, b⟩ := p
      obtain ⟨ha, hb⟩ := List.of_mem_zip hp
      simp only [List.mem_map] at hb
      obtain ⟨s, hs, rfl⟩ := hb
      rw [hiw a ha, List.length_map, hiw s hs])
    (by
      intro m hm
      simp only [List.mem_map] at hm
      obtain ⟨s, _, rfl⟩ := hm
      intro b hb
      simp only [List.mem_map] at hb
      obtain ⟨x, _, rfl⟩ := hb
      rfl)]

/-- Claim C9 support: on rows of equal length the row splitter cannot panic. -/
lemma rows_deltas_isSome (pairs : List (List Bool × List Bool)) :
    (∀ p ∈ pairs, p.1.length = p.2.length) →
    ∃ out, rows_deltas? pairs = some out := by
  induction pairs with
  | nil => intro _; exact ⟨[], rfl⟩
  | cons p rest ih =>
    intro hp
    obtain ⟨r, m⟩ := p
    have h1 : r.length = m.length := hp (r, m) (List.mem_cons_self _ _)
    obtain ⟨out, hout⟩ := ih fun q hq => hp q (List.mem_cons_of_mem _ hq)
    unfold rows_deltas?
    rw [pixel_deltas_from_row_eq_segments r m h1, Option.some_bind, hout,
      Option.map_some']
    exact ⟨_, rfl⟩

/-- Claim C9 support: equal shapes make the whole call return Ok. -/
lemma all_pixel_deltas_isOk (image mask : Array2 Bool)
    (hsh : image.shape = mask.shape) :
    ∃ out, all_pixel_deltas? image mask = some (Except.ok out) := by
  obtain ⟨hih, hiw⟩ := image.hdata
  obtain ⟨hmh, hmw⟩ := mask.hdata
  have hsh' : image.height = mask.height ∧ image.width = mask.width := by
    unfold Array2.shape at hsh
    exact ⟨congrArg Prod.fst hsh, congrArg Prod.snd hsh⟩
  unfold all_pixel_deltas?
  rw [if_neg (by unfold Array2.shape; simp [hsh'.1, hsh'.2])]
  obtain ⟨out, hout⟩ := rows_deltas_isSome (image.data.zip mask.data)
    (by
      intro p hp
      obtain ⟨a, b⟩ := p
      obtain ⟨ha, hb⟩ := List.of_mem_zip hp
      rw [hiw a ha, hmw b hb, hsh'.2])
  exact ⟨out, by rw [hout]; rfl⟩

/-- C1: in pixel_deltas_from_masked_run a delta may only be emitted for the
second and later edges, each measured against the previous edge, and never
from the segment's start column: the output is exactly the filtered list of
consecutive-edge differences, with no implicit edge at column 0. -/
theorem claim_C1 (sub_row : List Bool) :
    pixel_deltas_from_masked_run sub_row =
      spec_consecutive_deltas (white_pixel_indices sub_row) :=
  masked_run_eq_spec sub_row

/-- C2: every delta produced by pixel_deltas_from_masked_run on any sub-row,
and every element of a successful all_pixel_deltas result on any grids, is
strictly greater than 1. -/
theorem claim_C2 :
    (∀ (sub_row : List Bool), ∀ d ∈ pixel_deltas_from_masked_run sub_row, 1 < d) ∧
    ∀ (image mask : Array2 Bool) (out : List Nat),
      all_pixel_deltas? image mask = some (Except.ok out) → ∀ d ∈ out, 1 < d := by
  constructor
  · intro s d hd
    exact pdfmr_mem_gt_one hd
  · intro image mask out h d hd
    unfold all_pixel_deltas? at h
    by_cases hsh : image.shape ≠ mask.shape
    · rw [if_pos hsh] at h
      simp at h
    · rw [if_neg hsh] at h
      cases hr : rows_deltas? (image.data.zip mask.data) with
      | none => rw [hr] at h; simp at h
      | some l =>
        rw [hr] at h
        simp at h
        subst h
        exact rows_deltas_mem_gt_one _ l hr d hd

theorem claim_C2_witness : (1 < 3) ∧ (1 < 2) :=
  ⟨claim_C2.1 [false, true, false, false, true] 3 (by decide),
   claim_C2.2 imgC6 maskC6 [2, 3, 2, 2, 3, 2] (by rfl) 2 (by decide)⟩

/-- C3: grids of different shapes make all_pixel_deltas fail with the
shape-mismatch error whose message carries both shapes, before any row is
processed and with no partial output. -/
theorem claim_C3 (image mask : Array2 Bool) (h : image.shape ≠ mask.shape) :
    all_pixel_deltas? image mask =
      some (Except.error (shape_mismatch_msg image.shape mask.shape)) := by
  unfold all_pixel_deltas?
  rw [if_pos h]

theorem claim_C3_witness :
    all_pixel_deltas? imgC3 maskC3 =
      some (Except.error "Shape mismatch: img=[1, 4], mask=[4, 59]") := by
  rw [claim_C3 imgC3 maskC3 (by decide)]
  rfl

/-- C4: on rows of equal length the row splitter passes to the masked-run
computer exactly the segments of the segment view, these segments are pairwise
disjoint and in ascending column order, each is well formed, and no masked
(foreground) mask column lies inside any segment. -/
theorem claim_C4 (row row_mask : List Bool)
    (hlen : row.length = row_mask.length) :
    pixel_deltas_from_row? row row_mask =
      some ((row_segments row_mask row.length).flatMap fun seg =>
        pixel_deltas_from_masked_run ((row.drop seg.1).take (seg.2 - seg.1))) ∧
    List.Pairwise (fun p q : Nat × Nat => p.2 < q.1)
      (row_segments row_mask row.length) ∧
    ∀ seg ∈ row_segments row_mask row.length,
      seg.1 ≤ seg.2 ∧
      ∀ c, seg.1 ≤ c → c < seg.2 → row_mask.getD c false = false :=
  ⟨pixel_deltas_from_row_eq_segments row row_mask hlen,
   row_segments_pairwise row_mask row.length hlen,
   row_segments_sound row_mask row.length hlen⟩

theorem claim_C4_witness :
    pixel_deltas_from_row? rowC5 maskRowC5 =
      some ((row_segments maskRowC5 rowC5.length).flatMap fun seg =>
        pixel_deltas_from_masked_run ((rowC5.drop seg.1).take (seg.2 - seg.1))) :=
  (claim_C4 rowC5 maskRowC5 (by decide)).1

/-- C5: the spec scenario row with its mask row yields exactly the deltas
3 and 2. -/
theorem claim_C5 : pixel_deltas_from_row? rowC5 maskRowC5 = some [3, 2] := by
  rfl

/-- C6: the 2 x 8 two-row image with all-background mask yields the per-row
results concatenated top to bottom, the first edge of each row yielding no
delta. -/
theorem claim_C6 :
    all_pixel_deltas? imgC6 maskC6 = some (Except.ok [2, 3, 2, 2, 3, 2]) := by
  rfl

/-- C7: a mask row without foreground pixels makes the row splitter process
the whole row as one segment, and the engine entry point returns the same
result for an all-background mask of the image's shape as for no mask at
all. -/
theorem claim_C7 :
    (∀ (row row_mask : List Bool), row.length = row_mask.length →
      (∀ b ∈ row_mask, b = false) →
      pixel_deltas_from_row? row row_mask =
        some (pixel_deltas_from_masked_run row)) ∧
    ∀ (validate : String → Except String Unit)
      (load : String → Except String (Array2 Bool)) (ip mp : String)
      (img m : Array2 Bool),
      validate ip = Except.ok () → load ip = Except.ok img →
      validate mp = Except.ok () → load mp = Except.ok m →
      m.shape = img.shape → (∀ mrow ∈ m.data, ∀ b ∈ mrow, b = false) →
      get_px_deltas_from_lines validate load ip (some mp) =
        get_px_deltas_from_lines validate load ip none := by
  constructor
  · exact row_all_background
  · intro validate load ip mp img m hvi hli hvm hlm hsh hbg
    unfold get_px_deltas_from_lines
    simp only [hvi, hli, hvm, hlm]
    exact all_pixel_deltas_all_background img m hsh hbg

theorem claim_C7_witness :
    get_px_deltas_from_lines demo_validate demo_load "img.png" (some "mask.png") =
      get_px_deltas_from_lines demo_validate demo_load "img.png" none :=
  claim_C7.2 demo_validate demo_load "img.png" "mask.png" imgC6 maskC6
    rfl (by rfl) rfl (by rfl) rfl (by decide)

/-- C8: the earlier sub-row delta computer and the final one differ: on the
sub-row 0001 the earlier one measures the first edge against index 0 and
returns 3 while the final one returns nothing. -/
theorem claim_C8 :
    get_diffs_from_sub_row [false, false, false, true] = [3] ∧
    pixel_deltas_from_masked_run [false, false, false, true] = [] ∧
    get_diffs_from_sub_row [false, false, false, true] ≠
      pixel_deltas_from_masked_run [false, false, false, true] := by
  refine ⟨by decide, by decide, by decide⟩

/-- C9: grids of equal shape always produce a successful (Ok, panic-free)
result from all_pixel_deltas, for arbitrary pixel values. -/
theorem claim_C9 (image mask : Array2 Bool)
    (hsh : image.shape = mask.shape) :
    ∃ out, all_pixel_deltas? image mask = some (Except.ok out) :=
  all_pixel_deltas_isOk image mask hsh

theorem claim_C9_witness :
    ∃ out, all_pixel_deltas? imgC6 maskC6 = some (Except.ok out) :=
  claim_C9 imgC6 maskC6 rfl

/-- C10: in the earlier entry point the grid used as mask is decoded from the
image path, so two loaders agreeing on the image path give identical results
no matter what they store at the mask path. -/
theorem claim_C10 (validate : String → Except String Unit)
    (load1 load2 : String → Except String (Array2 Bool)) (ip mp : String)
    (h : load1 ip = load2 ip) :
    main_get_px_deltas_from_lines validate load1 ip (some mp) =
      main_get_px_deltas_from_lines validate load2 ip (some mp) := by
  unfold main_get_px_deltas_from_lines
  rw [h]

theorem claim_C10_witness :
    main_get_px_deltas_from_lines demo_validate demo_load "img.png" (some "mask.png") =
      main_get_px_deltas_from_lines demo_validate demo_load_alt "img.png" (some "mask.png") :=
  claim_C10 demo_validate demo_load demo_load_alt "img.png" "mask.png" (by rfl)
